import Mathlib

/-!
Verification development for two components of the `radio` repository:

* `cmd/posix-list-dir_other.go` — `readDirN`, a bounded, symlink-aware
  directory-entry enumerator;
* `cmd/http-stats.go` — `ConnStats` (atomic byte counters), `HTTPAPIStats`
  (lock-guarded per-API counter maps), `HTTPStats` (three tables plus
  `updateStats` and the `toServerHTTPStats` snapshot).

The Go code is shallowly embedded: the filesystem is a value (a list of raw
directory entries plus an optional injected read fault), Go maps are heap
cells addressed by references (so that the reference semantics of `map` —
in particular aliasing through `Load` — is visible), and Go `int` is `Int`.
-/

/-! ## Directory enumerator: data model -/

/-- The effective kind a `stat` call reports for a path. -/
inductive StatKind
  | dir
  | regular
  | other
deriving DecidableEq, Repr

/-- The kind of a raw directory entry as returned by `Readdir`.
For a symbolic link, `stat` records the outcome of the one follow-stat
`os.Stat(path.Join(dirPath, fi.Name()))`: `none` means the stat failed
(broken link), `some k` is the resolved kind. -/
inductive EntryKind
  | dir
  | regular
  | symlink (stat : Option StatKind)
  | other
deriving DecidableEq, Repr

/-- A raw directory entry: a name plus its mode-derived kind. -/
structure RawEntry where
  name : String
  kind : EntryKind
deriving DecidableEq, Repr

/-- A Go OS error as observed by `readDirN`: whether `os.IsNotExist` holds,
and the text of `err.Error()`. -/
structure OSError where
  isNotExist : Bool
  msg : String
deriving DecidableEq, Repr

/-- An error returned by `readDirN`: either the sentinel `errFileNotFound`
or a propagated OS error. -/
inductive GoErr
  | fileNotFound
  | osErr (e : OSError)
deriving DecidableEq, Repr

/-- The state of an open directory handle: the entries not yet delivered,
and an optional injected fault — `some (k, e)` makes the `Readdir` call after
`k` further successful deliveries return the OS error `e`. -/
structure DirState where
  pending : List RawEntry
  fault : Option (Nat × OSError)
deriving DecidableEq, Repr

/-- The outcome of `os.Open(dirPath)`: an open handle, or an OS error. -/
inductive OpenResult
  | ok (d : DirState)
  | err (e : OSError)
deriving DecidableEq, Repr

/-- The outcome of one `d.Readdir(n)` call. -/
inductive ReadRes
  | eof
  | err (e : OSError)
  | entries (fis : List RawEntry)
deriving DecidableEq, Repr

def tickFault : Option (Nat × OSError) → Option (Nat × OSError)
  | none => none
  | some (0, e) => some (0, e)
  | some (k + 1, e) => some (k, e)

/-- One `d.Readdir(n)` call: deliver up to `n` pending entries, report
`io.EOF` when the directory is exhausted, or fail when the injected fault
fires. -/
def readdir (n : Nat) (st : DirState) : ReadRes × DirState :=
  match st.fault with
  | some (0, e) => (.err e, st)
  | f =>
    if st.pending.isEmpty then (.eof, st)
    else (.entries (st.pending.take n), ⟨st.pending.drop n, tickFault f⟩)

/-- Modelled from the spec: the repository defines `SlashSeparator` outside
the given source files; the spec describes it as "a single reserved
path-separator character" appended to directory names. -/
def SlashSeparator : String := "/"

/-! ## Directory enumerator: the `readDirN` loop -/

/-- The body of the `for _, fi := range fis` loop of `readDirN`, over one
batch `fis`: classify each entry (following the one-shot symlink stat,
skipping entries whose stat failed), append the chosen names to `entries`,
and decrement `remaining` once per entry — except for a symlink whose stat
failed, whose `continue` fires before the decrement. -/
def procBatch (count : Int) (fis : List RawEntry) (remaining : Int)
    (entries : List String) : Int × List String :=
  match fis with
  | [] => (remaining, entries)
  | fi :: rest =>
    match fi.kind with
    | .symlink stat =>
      match stat with
      | none =>
        -- stat error: logged, entry skipped, budget untouched
        procBatch count rest remaining entries
      | some st =>
        let entries :=
          if st = .dir then entries ++ [fi.name ++ SlashSeparator]
          else if st = .regular then entries ++ [fi.name]
          else entries
        procBatch count rest (if 0 < count then remaining - 1 else remaining) entries
    | .dir =>
      procBatch count rest (if 0 < count then remaining - 1 else remaining)
        (entries ++ [fi.name ++ SlashSeparator])
    | .regular =>
      procBatch count rest (if 0 < count then remaining - 1 else remaining)
        (entries ++ [fi.name])
    | .other =>
      procBatch count rest (if 0 < count then remaining - 1 else remaining) entries

/-- `maxEntries := 1000; if count > 0 && count < maxEntries { maxEntries = count }`. -/
def maxEntriesOf (count : Int) : Nat :=
  if 0 < count ∧ count < 1000 then count.toNat else 1000

theorem one_le_maxEntriesOf (count : Int) : 1 ≤ maxEntriesOf count := by
  unfold maxEntriesOf
  split
  · next h => omega
  · omega

theorem readdir_entries_pending {n : Nat} {st st' : DirState} {fis : List RawEntry}
    (hn : 1 ≤ n) (h : readdir n st = (.entries fis, st')) :
    st'.pending.length < st.pending.length := by
  unfold readdir at h
  split at h
  · simp at h
  · split at h
    · simp at h
    · next hne =>
      have hpend : st' = ⟨st.pending.drop n, tickFault st.fault⟩ := by
        cases h; rfl
      subst hpend
      simp only [List.length_drop]
      have : st.pending.length ≠ 0 := by
        simpa [List.isEmpty_iff_length_eq_zero] using hne
      omega

/-- The `for !done` read loop of `readDirN`: read a batch, truncate it to the
remaining budget when bounded (setting `done`), process it, repeat.
The loop consumes at least one pending entry per iteration, so it is run
with `fuel` larger than the number of pending entries and the `fuel = 0`
fallback (which returns what was accumulated, like the EOF exit) is never
reached — see `readLoop_fuel_irrelevant`. -/
def readLoop (count : Int) (fuel : Nat) (st : DirState) (remaining : Int)
    (entries : List String) : Except GoErr (List String) :=
  match fuel with
  | 0 => .ok entries
  | fuel + 1 =>
    match readdir (maxEntriesOf count) st with
    | (.eof, _) => .ok entries
    | (.err e, _) => .error (.osErr e)
    | (.entries fis, st') =>
      if 0 < count ∧ remaining ≤ (fis.length : Int) then
        .ok (procBatch count (fis.take remaining.toNat) remaining entries).2
      else
        let p := procBatch count fis remaining entries
        readLoop count fuel st' p.1 p.2

/-- Go `strings.Contains` on character lists: does `l` start with `p`? -/
def listStarts : List Char → List Char → Bool
  | _, [] => true
  | [], _ :: _ => false
  | x :: xs, y :: ys => x == y && listStarts xs ys

/-- Go `strings.Contains` on character lists: does `l` contain `p`? -/
def listContainsSub : List Char → List Char → Bool
  | [], p => listStarts [] p
  | x :: xs, p => listStarts (x :: xs) p || listContainsSub xs p

/-- Go `strings.Contains(s, pat)`. -/
def strContainsSub (s pat : String) : Bool :=
  listContainsSub s.data pat.data

/-- `readDirN(dirPath, count)`. The `os.Open` outcome is an explicit input;
everything after it follows `cmd/posix-list-dir_other.go` line by line:
translate not-exist and "not a directory" open failures to
`errFileNotFound`, propagate other open failures, then run the read loop. -/
def readDirN (d : OpenResult) (count : Int) : Except GoErr (List String) :=
  match d with
  | .err e =>
    if e.isNotExist then .error .fileNotFound
    else if strContainsSub e.msg "not a directory" then .error .fileNotFound
    else .error (.osErr e)
  | .ok st => readLoop count (st.pending.length + 1) st count []

/-- `readDir(dirPath)` returns all the entries. -/
def readDir (d : OpenResult) : Except GoErr (List String) :=
  readDirN d (-1)

/-! ## Directory enumerator: classification as a specification function -/

/-- Does this entry's symlink stat fail? (`os.Stat` error branch). -/
def statFails : RawEntry → Bool
  | ⟨_, .symlink none⟩ => true
  | ⟨_, .symlink (some _)⟩ => false
  | ⟨_, .dir⟩ => false
  | ⟨_, .regular⟩ => false
  | ⟨_, .other⟩ => false

theorem statFails_dir (nm : String) : statFails ⟨nm, .dir⟩ = false := rfl

theorem statFails_regular (nm : String) : statFails ⟨nm, .regular⟩ = false := rfl

theorem statFails_other (nm : String) : statFails ⟨nm, .other⟩ = false := rfl

theorem statFails_symlink_none (nm : String) :
    statFails ⟨nm, .symlink none⟩ = true := rfl

theorem statFails_symlink_some (nm : String) (st : StatKind) :
    statFails ⟨nm, .symlink (some st)⟩ = false := rfl

/-- The name, if any, that `readDirN` emits for a raw entry: directories
(also through a resolved symlink) get the separator suffix, regular files
their plain name, everything else is dropped. -/
def classifyEntry (fi : RawEntry) : Option String :=
  match fi.kind with
  | .dir => some (fi.name ++ SlashSeparator)
  | .regular => some (fi.name)
  | .symlink (some .dir) => some (fi.name ++ SlashSeparator)
  | .symlink (some .regular) => some (fi.name)
  | .symlink (some .other) => none
  | .symlink none => none
  | .other => none

/-! ## Directory enumerator: lemmas about one batch -/

theorem procBatch_snd (count : Int) (fis : List RawEntry) (remaining : Int)
    (entries : List String) :
    (procBatch count fis remaining entries).2
      = entries ++ fis.filterMap classifyEntry := by
  induction fis generalizing remaining entries with
  | nil => simp [procBatch]
  | cons fi rest ih =>
    obtain ⟨nm, k⟩ := fi
    cases k with
    | dir => simp [procBatch, classifyEntry, ih]
    | regular => simp [procBatch, classifyEntry, ih]
    | other => simp [procBatch, classifyEntry, ih]
    | symlink stat =>
      cases stat with
      | none => simp [procBatch, classifyEntry, ih]
      | some st => cases st <;> simp [procBatch, classifyEntry, ih]

theorem procBatch_fst (count : Int) (hc : 0 < count) (fis : List RawEntry)
    (remaining : Int) (entries : List String) :
    (procBatch count fis remaining entries).1
      = remaining - (((fis.filter fun fi => !statFails fi).length : Nat) : Int) := by
  induction fis generalizing remaining entries with
  | nil => simp [procBatch]
  | cons fi rest ih =>
    obtain ⟨nm, k⟩ := fi
    cases k with
    | dir => simp [procBatch, statFails_dir, hc, ih]; omega
    | regular => simp [procBatch, statFails_regular, hc, ih]; omega
    | other => simp [procBatch, statFails_other, hc, ih]; omega
    | symlink stat =>
      cases stat with
      | none => simp [procBatch, statFails_symlink_none, ih]
      | some st =>
        cases st <;> (simp [procBatch, statFails_symlink_some, hc, ih]; omega)

theorem length_classify_le_budget (fis : List RawEntry) :
    (fis.filterMap classifyEntry).length
      ≤ (fis.filter fun fi => !statFails fi).length := by
  induction fis with
  | nil => simp
  | cons fi rest ih =>
    obtain ⟨nm, k⟩ := fi
    cases k with
    | dir => simp [classifyEntry, statFails_dir]; omega
    | regular => simp [classifyEntry, statFails_regular]; omega
    | other => simp [classifyEntry, statFails_other]; omega
    | symlink stat =>
      cases stat with
      | none => simpa [classifyEntry, statFails_symlink_none] using ih
      | some st =>
        cases st <;> (simp [classifyEntry, statFails_symlink_some]; omega)

/-! ## Directory enumerator: lemmas about the read loop -/

theorem readdir_no_fault_nil {n : Nat} {st : DirState}
    (hf : st.fault = none) (hp : st.pending = []) :
    readdir n st = (.eof, st) := by
  unfold readdir
  rw [hf]
  simp [hp]

theorem readdir_no_fault_cons {n : Nat} {st : DirState}
    (hf : st.fault = none) (hp : st.pending ≠ []) :
    readdir n st = (.entries (st.pending.take n), ⟨st.pending.drop n, none⟩) := by
  unfold readdir
  rw [hf]
  simp [hp, tickFault]

/-- The fuel `readDirN` passes to `readLoop` is immaterial: any fuel larger
than the number of pending entries gives the same result, because every
iteration consumes at least one pending entry. -/
theorem readLoop_fuel_irrelevant (count : Int) :
    ∀ (fuel fuel' : Nat) (st : DirState) (remaining : Int) (entries : List String),
      st.pending.length < fuel → st.pending.length < fuel' →
      readLoop count fuel st remaining entries
        = readLoop count fuel' st remaining entries := by
  intro fuel
  induction fuel with
  | zero => intro fuel' st rem e hlt _; omega
  | succ f ih =>
    intro fuel' st rem e hlt hlt'
    match fuel', hlt' with
    | f' + 1, hlt' =>
      rw [readLoop, readLoop]
      rcases hrd : readdir (maxEntriesOf count) st with ⟨res, st'⟩
      cases res with
      | eof => rfl
      | err e0 => rfl
      | entries fis =>
        dsimp only
        split
        · rfl
        · have hdec : st'.pending.length < st.pending.length :=
            readdir_entries_pending (one_le_maxEntriesOf count) hrd
          exact ih f' st' _ _ (by omega) (by omega)

/-- With no injected read fault, the loop always succeeds: per-entry
symlink-stat failures are skipped, never propagated. -/
theorem readLoop_no_fault_ok (count : Int) :
    ∀ (fuel : Nat) (st : DirState) (remaining : Int) (entries : List String),
      st.fault = none →
      ∃ l, readLoop count fuel st remaining entries = .ok l := by
  intro fuel
  induction fuel with
  | zero => intro st rem e _; exact ⟨e, rfl⟩
  | succ f ih =>
    intro st rem e hf
    rw [readLoop]
    by_cases hp : st.pending = []
    · rw [readdir_no_fault_nil hf hp]
      exact ⟨e, rfl⟩
    · rw [readdir_no_fault_cons hf hp]
      dsimp only
      split
      · exact ⟨_, rfl⟩
      · exact ih ⟨st.pending.drop (maxEntriesOf count), none⟩ _ _ rfl

/-- For `count ≤ 0` the loop is the plain unbounded enumeration: it returns
everything accumulated so far followed by the classification of every
pending entry. -/
theorem readLoop_nonpos_all (count : Int) (hc : count ≤ 0) :
    ∀ (fuel : Nat) (st : DirState) (remaining : Int) (entries : List String),
      st.fault = none → st.pending.length < fuel →
      readLoop count fuel st remaining entries
        = .ok (entries ++ st.pending.filterMap classifyEntry) := by
  intro fuel
  induction fuel with
  | zero => intro st rem e _ hlt; omega
  | succ f ih =>
    intro st rem e hf hlt
    rw [readLoop]
    by_cases hp : st.pending = []
    · rw [readdir_no_fault_nil hf hp]
      simp [hp]
    · rw [readdir_no_fault_cons hf hp]
      dsimp only
      rw [if_neg (by rintro ⟨h1, _⟩; omega)]
      have hdec : (st.pending.drop (maxEntriesOf count)).length < f := by
        have h1 := one_le_maxEntriesOf count
        have h2 : st.pending.length ≠ 0 := by
          simpa [List.length_eq_zero] using hp
        simp only [List.length_drop]
        omega
      rw [ih ⟨st.pending.drop (maxEntriesOf count), none⟩ _ _ rfl hdec]
      rw [procBatch_snd]
      rw [List.append_assoc, ← List.filterMap_append, List.take_append_drop]

/-- For `0 < count`, the loop keeps `entries.length + remaining ≤ count`
invariant, so a successful result has at most `count` names. -/
theorem readLoop_pos_le (count : Int) (hc : 0 < count) :
    ∀ (fuel : Nat) (st : DirState) (remaining : Int)
      (entries l : List String),
      1 ≤ remaining → (entries.length : Int) + remaining ≤ count →
      readLoop count fuel st remaining entries = .ok l →
      (l.length : Int) ≤ count := by
  intro fuel
  induction fuel with
  | zero =>
    intro st rem e l h1 h2 heq
    rw [readLoop] at heq
    cases heq
    omega
  | succ f ih =>
    intro st rem e l h1 h2 heq
    rw [readLoop] at heq
    rcases hrd : readdir (maxEntriesOf count) st with ⟨res, st'⟩
    rw [hrd] at heq
    cases res with
    | eof => cases heq; omega
    | err e0 => cases heq
    | entries fis =>
      dsimp only at heq
      by_cases htr : 0 < count ∧ rem ≤ (fis.length : Int)
      · rw [if_pos htr] at heq
        cases heq
        rw [procBatch_snd]
        have hfm := List.length_filterMap_le classifyEntry (fis.take rem.toNat)
        have htk : (fis.take rem.toNat).length ≤ rem.toNat :=
          le_of_le_of_eq (le_min_iff.mp (le_of_eq (List.length_take _ _))).1 rfl
        simp only [List.length_append]
        omega
      · rw [if_neg htr] at heq
        have hlen : (fis.length : Int) < rem := by
          rcases not_and_or.mp htr with h | h
          · exact absurd hc h
          · omega
        have hb := procBatch_fst count hc fis rem e
        have hfilter : ((fis.filter fun fi => !statFails fi).length : Int)
            ≤ (fis.length : Int) := by
          exact_mod_cast List.length_filter_le _ _
        have hfm : ((fis.filterMap classifyEntry).length : Int)
            ≤ ((fis.filter fun fi => !statFails fi).length : Int) := by
          exact_mod_cast length_classify_le_budget fis
        refine ih st' _ _ _ ?_ ?_ heq
        · omega
        · rw [procBatch_snd, hb]
          simp only [List.length_append]
          push_cast
          omega

/-- For two non-positive counts the loop computes the same thing regardless
of the `remaining` budget: the budget is neither tested nor decremented. -/
theorem readLoop_nonpos_eq (c1 c2 : Int) (h1 : c1 ≤ 0) (h2 : c2 ≤ 0) :
    ∀ (fuel : Nat) (st : DirState) (r1 r2 : Int) (entries : List String),
      readLoop c1 fuel st r1 entries = readLoop c2 fuel st r2 entries := by
  intro fuel
  induction fuel with
  | zero => intro st r1 r2 e; rfl
  | succ f ih =>
    intro st r1 r2 e
    rw [readLoop, readLoop]
    have hme : maxEntriesOf c1 = maxEntriesOf c2 := by
      unfold maxEntriesOf
      rw [if_neg (by rintro ⟨ha, _⟩; omega), if_neg (by rintro ⟨ha, _⟩; omega)]
    rw [hme]
    rcases hrd : readdir (maxEntriesOf c2) st with ⟨res, st'⟩
    cases res with
    | eof => rfl
    | err e0 => rfl
    | entries fis =>
      dsimp only
      rw [if_neg (by rintro ⟨ha, _⟩; omega), if_neg (by rintro ⟨ha, _⟩; omega)]
      have e1 := procBatch_snd c1 fis r1 e
      have e2 := procBatch_snd c2 fis r2 e
      rw [e1, e2]
      exact ih st' _ _ _

theorem filterMap_classify_all_kinds :
    ∀ (es : List RawEntry), (∀ fi ∈ es, fi.kind = .dir ∨ fi.kind = .regular) →
      (es.filterMap classifyEntry).length = es.length := by
  intro es
  induction es with
  | nil => intro _; rfl
  | cons fi rest ih =>
    intro h
    have hfi := h fi (List.mem_cons_self fi rest)
    have hrest : ∀ gi ∈ rest, gi.kind = .dir ∨ gi.kind = .regular :=
      fun gi hgi => h gi (List.mem_cons_of_mem fi hgi)
    rcases hfi with hd | hr
    · simp [List.filterMap_cons, classifyEntry, hd, ih hrest]
    · simp [List.filterMap_cons, classifyEntry, hr, ih hrest]

/-! ## Claims about the directory enumerator -/

/-- Claim C1, counterexample: the claim says `readDirN(dirPath, 0)` yields an
empty result, but the cap is only applied when `count > 0`, so `count = 0`
behaves like "return all entries": on a directory with one regular file
`"a"`, `readDirN(dirPath, 0)` returns `["a"]`, one name more than the
claimed bound of `0`. -/
theorem readDirN_zero_counterexample :
    readDirN (.ok ⟨[⟨"a", .regular⟩], none⟩) 0 = .ok ["a"]
      ∧ ¬ (∀ l, readDirN (.ok ⟨[⟨"a", .regular⟩], none⟩) 0 = .ok l →
            l.length ≤ 0) := by
  constructor
  · rfl
  · intro h
    have := h ["a"] rfl
    exact absurd this (by decide)

/-- Claim C1, amended: for every bound `k > 0` the bounded listing returns at
most `k` entry names; `k = 0` is not capped — the code only applies the cap
for `count > 0`, so `readDirN(dirPath, 0)` behaves exactly like the
unbounded `readDirN(dirPath, -1)`. -/
theorem readDirN_bounded_length :
    (∀ (es : List RawEntry) (fault : Option (Nat × OSError)) (k : Int)
        (l : List String),
        0 < k → readDirN (.ok ⟨es, fault⟩) k = .ok l → (l.length : Int) ≤ k)
      ∧ (∀ (d : DirState), readDirN (.ok d) 0 = readDirN (.ok d) (-1)) := by
  constructor
  · intro es fault k l hk hl
    exact readLoop_pos_le k hk _ _ _ _ _ (by omega) (by simp) hl
  · intro d
    exact readLoop_nonpos_eq 0 (-1) (by omega) (by omega) _ d _ _ _

theorem readDirN_bounded_length_witness :
    (0 : Int) < 1
      ∧ readDirN (.ok ⟨[⟨"a", .regular⟩, ⟨"b", .regular⟩], none⟩) 1 = .ok ["a"]
      ∧ ((["a"] : List String).length : Int) ≤ 1 := by
  refine ⟨by norm_num, rfl, ?_⟩
  exact readDirN_bounded_length.1 [⟨"a", .regular⟩, ⟨"b", .regular⟩] none 1 ["a"]
    (by norm_num) rfl

/-- Claim C2, counterexample: the claim says only the initial open can
produce a hard error, but a failed `d.Readdir` batch read is also returned
to the caller (line 52 of `posix-list-dir_other.go`): with a successfully
opened directory whose first batch read fails with an I/O error, `readDirN`
returns that error, not a nil error. -/
theorem readDirN_read_error_counterexample :
    readDirN (.ok ⟨[⟨"a", .regular⟩], some (0, ⟨false, "input/output error"⟩)⟩)
        (-1)
      = .error (.osErr ⟨false, "input/output error"⟩) := by
  rfl

/-- Claim C2, amended: hard errors can come from the initial open or from a
batch `Readdir` call; per-entry symlink-resolution failures are never
propagated. Once the open succeeds and no batch read fails, `readDirN`
returns an entry list and a nil error, whatever entries (including broken
symlinks) the directory holds. -/
theorem readDirN_soft_errors (es : List RawEntry) (count : Int) :
    ∃ l, readDirN (.ok ⟨es, none⟩) count = .ok l :=
  readLoop_no_fault_ok count _ _ _ _ rfl

/-- Claim C6: the unbounded listing `readDirN(dirPath, -1)` returns exactly
the classification of every entry in OS read order — directory names (also
through a one-follow symlink stat) suffixed with the separator, regular
file names unsuffixed, everything else (including failed symlink stats)
absent — and hence exactly N + M names on a directory of N regular files
and M subdirectories. -/
theorem readDirN_unbounded (es : List RawEntry) :
    readDirN (.ok ⟨es, none⟩) (-1) = .ok (es.filterMap classifyEntry)
      ∧ ((∀ fi ∈ es, fi.kind = .dir ∨ fi.kind = .regular) →
          (es.filterMap classifyEntry).length = es.length) := by
  constructor
  · have h := readLoop_nonpos_all (-1) (by omega) (es.length + 1) ⟨es, none⟩
      (-1) [] rfl (by simp)
    simpa using h
  · exact filterMap_classify_all_kinds es

theorem readDirN_unbounded_witness :
    (List.filterMap classifyEntry
        [⟨"a", .regular⟩, ⟨"d", .dir⟩]).length
      = ([⟨"a", .regular⟩, ⟨"d", .dir⟩] : List RawEntry).length := by
  exact (readDirN_unbounded _).2 (by decide)

/-- Claim C7: `readDirN` returns `errFileNotFound` exactly when the open
fails with a not-exist error or with an error whose text contains
"not a directory"; every other open failure is returned unchanged. -/
theorem readDirN_open_error (e : OSError) (count : Int) :
    (readDirN (.err e) count = .error .fileNotFound
        ↔ (e.isNotExist = true
            ∨ strContainsSub e.msg "not a directory" = true))
      ∧ ((e.isNotExist = false
            ∧ strContainsSub e.msg "not a directory" = false) →
          readDirN (.err e) count = .error (.osErr e)) := by
  by_cases h1 : e.isNotExist <;>
    by_cases h2 : strContainsSub e.msg "not a directory" <;>
      simp [readDirN, h1, h2]

theorem readDirN_open_error_witness :
    ((⟨false, "permission denied"⟩ : OSError).isNotExist = false
        ∧ strContainsSub "permission denied" "not a directory" = false)
      ∧ readDirN (.err ⟨false, "permission denied"⟩) 7
          = .error (.osErr ⟨false, "permission denied"⟩) := by
  refine ⟨⟨rfl, by decide⟩, ?_⟩
  exact (readDirN_open_error ⟨false, "permission denied"⟩ 7).2 ⟨rfl, by decide⟩

/-- Claim C10: in a bounded listing (`count > 0`), processing one batch
decrements the remaining budget once for every entry except a symlink whose
follow-stat failed — so a failed symlink leaves the budget free for a later
entry, while a non-symlink entry that is neither a directory nor a regular
file is dropped from the output (the second conjunct) yet still consumes
budget and is never backfilled. -/
theorem procBatch_budget (count : Int) (fis : List RawEntry) (remaining : Int)
    (entries : List String) (hc : 0 < count) :
    (procBatch count fis remaining entries).1
        = remaining - (((fis.filter fun fi => !statFails fi).length : Nat) : Int)
      ∧ (procBatch count fis remaining entries).2
        = entries ++ fis.filterMap classifyEntry :=
  ⟨procBatch_fst count hc fis remaining entries,
    procBatch_snd count fis remaining entries⟩

theorem procBatch_budget_witness :
    (procBatch 3 [⟨"s", .symlink none⟩, ⟨"x", .other⟩, ⟨"a", .regular⟩] 5 []).1
        = 3
      ∧ (procBatch 3 [⟨"s", .symlink none⟩, ⟨"x", .other⟩, ⟨"a", .regular⟩]
          5 []).2 = ["a"] := by
  have h := procBatch_budget 3
    [⟨"s", .symlink none⟩, ⟨"x", .other⟩, ⟨"a", .regular⟩] 5 [] (by norm_num)
  constructor
  · rw [h.1]; rfl
  · rw [h.2]; rfl

/-! ## Stats aggregator: Go maps as heap cells

A Go `map[string]int` value is a reference to a mutable table (or `nil`).
The heap is the association of references to table contents; a table is an
association list looked up by key, with the Go convention that a missing
key reads as the zero value through `countIn`. -/

/-- The content of one Go map: an association list from API name to count. -/
abbrev APIMap := List (String × Int)

def lookupA : APIMap → String → Option Int
  | [], _ => none
  | (k, v) :: rest, api => if k = api then some v else lookupA rest api

def setA : APIMap → String → Int → APIMap
  | [], api, v => [(api, v)]
  | (k, w) :: rest, api, v =>
    if k = api then (k, v) :: rest else (k, w) :: setA rest api v

/-- A reference to a heap cell holding a map. -/
abbrev Ref := Nat

/-- The heap of allocated maps. -/
structure Heap where
  cells : List APIMap
deriving DecidableEq, Repr

def readH (h : Heap) (r : Ref) : APIMap := h.cells.getD r []

def writeH (h : Heap) (r : Ref) (m : APIMap) : Heap := ⟨h.cells.set r m⟩

/-- `make(map[string]int)` and similar: allocate a fresh cell. -/
def allocH (h : Heap) (m : APIMap) : Heap × Ref := (⟨h.cells ++ [m]⟩, h.cells.length)

/-- `HTTPAPIStats` as in `http-stats.go`: the `APIStats` field is a Go map,
i.e. `none` (nil) or a reference into the heap. The `sync.RWMutex` field
serialises the operations; each operation below is one critical section. -/
structure HTTPAPIStats where
  APIStats : Option Ref
deriving DecidableEq, Repr

/-- The read-check-modify core shared by the two `Inc` branches:
`stats.APIStats[api]++` when present, `stats.APIStats[api] = 1` when
absent. -/
def incCore (h : Heap) (r : Ref) (api : String) : Heap :=
  let m := readH h r
  match lookupA m api with
  | some v => writeH h r (setA m api (v + 1))
  | none => writeH h r (setA m api 1)

/-- `HTTPAPIStats.Inc`: `make` the map if nil, then increment the entry,
creating it at 1 if absent. -/
def HTTPAPIStats.Inc (stats : HTTPAPIStats) (h : Heap) (api : String) :
    Heap × HTTPAPIStats :=
  match stats.APIStats with
  | none =>
    let p := allocH h []
    (incCore p.1 p.2 api, ⟨some p.2⟩)
  | some r => (incCore h r api, ⟨some r⟩)

/-- `HTTPAPIStats.Dec`: decrement only if the key exists with a value > 0;
otherwise a no-op (indexing a nil map yields `ok = false`). -/
def HTTPAPIStats.Dec (stats : HTTPAPIStats) (h : Heap) (api : String) :
    Heap × HTTPAPIStats :=
  match stats.APIStats with
  | none => (h, stats)
  | some r =>
    let m := readH h r
    match lookupA m api with
    | some v => if 0 < v then (writeH h r (setA m api (v - 1)), stats) else (h, stats)
    | none => (h, stats)

/-- `HTTPAPIStats.Load`: returns the recorded stats — the map reference
itself, not a copy of its content. -/
def HTTPAPIStats.Load (stats : HTTPAPIStats) : Option Ref :=
  stats.APIStats

/-- `ServerHTTPAPIStats`: the reporting shape; its `APIStats` field is again
a Go map reference. -/
structure ServerHTTPAPIStats where
  APIStats : Option Ref
deriving DecidableEq, Repr

structure ServerHTTPStats where
  CurrentS3Requests : ServerHTTPAPIStats
  TotalS3Requests : ServerHTTPAPIStats
  TotalS3Errors : ServerHTTPAPIStats
deriving DecidableEq, Repr

/-- `HTTPStats`: the three live counter tables. -/
structure HTTPStats where
  currentS3Requests : HTTPAPIStats
  totalS3Requests : HTTPAPIStats
  totalS3Errors : HTTPAPIStats
deriving DecidableEq, Repr

/-- `HTTPStats.toServerHTTPStats`: build the reporting structure from the
three `Load` results. -/
def HTTPStats.toServerHTTPStats (st : HTTPStats) : ServerHTTPStats :=
  { CurrentS3Requests := ⟨st.currentS3Requests.Load⟩
    TotalS3Requests := ⟨st.totalS3Requests.Load⟩
    TotalS3Errors := ⟨st.totalS3Errors.Load⟩ }

/-- The observable count of an API in a table: a missing key or nil map
reads as the zero value. -/
def countIn (h : Heap) (stats : HTTPAPIStats) (api : String) : Int :=
  match stats.APIStats with
  | none => 0
  | some r => (lookupA (readH h r) api).getD 0

/-- Modelled from the spec: the repository defines `prometheusMetricsPath`
outside the given source files; the spec calls it "the metrics-scrape
path". Its exact text is irrelevant to the claims. -/
def prometheusMetricsPath : String := "/minio/prometheus/metrics"

/-- Go `strings.HasSuffix` on character lists. -/
def listEndsWith (l p : List Char) : Bool :=
  decide (p.length ≤ l.length) && (l.drop (l.length - p.length) == p)

/-- Go `strings.HasSuffix(s, suffix)`. -/
def strHasSuffix (s suffix : String) : Bool :=
  listEndsWith s.data suffix.data

/-- The part of `*http.Request` that `updateStats` reads. -/
structure HttpRequest where
  urlPath : String
  method : String
deriving DecidableEq, Repr

/-- Modelled from the spec: `recordAPIStats` is defined outside the given
source files; `updateStats` reads its recorded response status code and the
S3-class flag. -/
structure RecordAPIStats where
  respStatusCode : Int
  isS3Request : Bool
deriving DecidableEq, Repr

/-- `HTTPStats.updateStats`: count the request in `totalS3Requests` when it
is S3-flagged and its path is not the metrics-scrape path, and additionally
in `totalS3Errors` when the response is not 2xx and the status code is
non-zero. The Prometheus duration-histogram observation for S3 GET requests
is a side effect into an external collaborator and has no effect on this
state. -/
def HTTPStats.updateStats (st : HTTPStats) (h : Heap) (api : String)
    (r : HttpRequest) (w : RecordAPIStats) : Heap × HTTPStats :=
  let successReq := 200 ≤ w.respStatusCode ∧ w.respStatusCode < 300
  if w.isS3Request ∧ ¬ (strHasSuffix r.urlPath prometheusMetricsPath = true) then
    let p1 := st.totalS3Requests.Inc h api
    let st1 : HTTPStats := { st with totalS3Requests := p1.2 }
    if ¬ successReq ∧ w.respStatusCode ≠ 0 then
      let p2 := st1.totalS3Errors.Inc p1.1 api
      (p2.1, { st1 with totalS3Errors := p2.2 })
    else (p1.1, st1)
  else (h, st)

/-- `newHTTPStats()`: all three tables start with a nil map. -/
def newHTTPStats : HTTPStats := ⟨⟨none⟩, ⟨none⟩, ⟨none⟩⟩

/-- An operation on one `HTTPAPIStats` table. -/
inductive APIOp
  | inc (api : String)
  | dec (api : String)
deriving DecidableEq, Repr

def applyOp (p : Heap × HTTPAPIStats) (op : APIOp) : Heap × HTTPAPIStats :=
  match op with
  | .inc api => p.2.Inc p.1 api
  | .dec api => p.2.Dec p.1 api

/-- Run a sequence of `Inc`/`Dec` calls on a fresh table in an empty heap. -/
def runOps (ops : List APIOp) : Heap × HTTPAPIStats :=
  ops.foldl applyOp (⟨[]⟩, ⟨none⟩)

/-! ## Stats aggregator: map and heap lemmas -/

theorem lookupA_setA (m : APIMap) (target query : String) (v : Int) :
    lookupA (setA m target v) query
      = if target = query then some v else lookupA m query := by
  induction m with
  | nil => by_cases h : target = query <;> simp [setA, lookupA, h]
  | cons kv rest ih =>
    obtain ⟨k0, w⟩ := kv
    by_cases h0 : k0 = target
    · subst h0
      by_cases hq : k0 = query <;> simp [setA, lookupA, hq]
    · by_cases hq : k0 = query
      · subst hq
        have : ¬ target = k0 := fun hh => h0 hh.symm
        simp [setA, lookupA, h0, this]
      · simp [setA, lookupA, h0, hq, ih]

theorem writeH_length (h : Heap) (r : Ref) (m : APIMap) :
    (writeH h r m).cells.length = h.cells.length := by
  simp [writeH]

theorem allocH_length (h : Heap) (m : APIMap) :
    (allocH h m).1.cells.length = h.cells.length + 1 := by
  simp [allocH]

theorem readH_writeH_self {h : Heap} {r : Ref} (hr : r < h.cells.length)
    (m : APIMap) : readH (writeH h r m) r = m := by
  simp [readH, writeH, List.getD_eq_getElem?_getD, List.getElem?_set_self hr]

theorem readH_writeH_ne (h : Heap) {r r' : Ref} (hne : r ≠ r') (m : APIMap) :
    readH (writeH h r m) r' = readH h r' := by
  simp [readH, writeH, List.getD_eq_getElem?_getD, List.getElem?_set_ne hne]

theorem readH_allocH_fresh (h : Heap) (m : APIMap) :
    readH (allocH h m).1 (allocH h m).2 = m := by
  simp [readH, allocH, List.getD_eq_getElem?_getD, List.getElem?_concat_length]

theorem readH_allocH_old (h : Heap) {r : Ref} (hr : r < h.cells.length)
    (m : APIMap) : readH (allocH h m).1 r = readH h r := by
  simp [readH, allocH, List.getD_eq_getElem?_getD, List.getElem?_append, hr]

/-- Table validity: a non-nil map reference points into the heap. -/
def validT (h : Heap) (stats : HTTPAPIStats) : Prop :=
  ∀ r, stats.APIStats = some r → r < h.cells.length

/-- Two tables do not share a map. -/
def distinctT (a b : HTTPAPIStats) : Prop :=
  ∀ r s, a.APIStats = some r → b.APIStats = some s → r ≠ s

theorem incCore_length (h : Heap) (r : Ref) (api : String) :
    (incCore h r api).cells.length = h.cells.length := by
  cases hm : lookupA (readH h r) api <;> simp [incCore, hm, writeH]

theorem incCore_readH_ne (h : Heap) (r : Ref) (api : String) {r' : Ref}
    (hne : r ≠ r') : readH (incCore h r api) r' = readH h r' := by
  cases hm : lookupA (readH h r) api <;>
    (simp only [incCore, hm]; exact readH_writeH_ne _ hne _)

theorem Inc_heap_length (stats : HTTPAPIStats) (h : Heap) (api : String) :
    h.cells.length ≤ (stats.Inc h api).1.cells.length := by
  cases hs : stats.APIStats with
  | none => simp [HTTPAPIStats.Inc, hs, incCore_length, allocH]
  | some r => simp [HTTPAPIStats.Inc, hs, incCore_length]

theorem Dec_snd (stats : HTTPAPIStats) (h : Heap) (api : String) :
    (stats.Dec h api).2 = stats := by
  cases hs : stats.APIStats with
  | none => simp [HTTPAPIStats.Dec, hs]
  | some r =>
    simp only [HTTPAPIStats.Dec, hs]
    split
    · split <;> rfl
    · rfl

theorem Dec_heap_length (stats : HTTPAPIStats) (h : Heap) (api : String) :
    (stats.Dec h api).1.cells.length = h.cells.length := by
  cases hs : stats.APIStats with
  | none => simp [HTTPAPIStats.Dec, hs]
  | some r =>
    simp only [HTTPAPIStats.Dec, hs]
    split
    · split <;> simp [writeH]
    · rfl

/-- What `Inc` does to the observable counts of its own table: the named
count goes up by one (a missing key starts at 1), all others are
untouched. -/
theorem Inc_countIn (h : Heap) (stats : HTTPAPIStats) (api k : String)
    (hv : validT h stats) :
    countIn (stats.Inc h api).1 (stats.Inc h api).2 k
      = if k = api then countIn h stats api + 1 else countIn h stats k := by
  cases hs : stats.APIStats with
  | none =>
    have hlen : h.cells.length < (allocH h []).1.cells.length := by
      simp [allocH_length]
    have hfresh : readH (allocH h []).1 (allocH h []).2 = [] :=
      readH_allocH_fresh h []
    simp only [HTTPAPIStats.Inc, hs, countIn, incCore, hfresh, lookupA]
    rw [readH_writeH_self (by simp [allocH])]
    by_cases hk : k = api
    · simp [lookupA_setA, hk, lookupA, Option.getD]
    · simp [lookupA_setA, hk, Ne.symm hk, lookupA, Option.getD]
  | some r =>
    have hr : r < h.cells.length := hv r hs
    cases hm : lookupA (readH h r) api with
    | some v =>
      simp only [HTTPAPIStats.Inc, hs, countIn, incCore, hm]
      rw [readH_writeH_self (by simpa [writeH] using hr)]
      by_cases hk : k = api
      · simp [lookupA_setA, hk, hm]
      · simp [lookupA_setA, hk, Ne.symm hk, hm]
    | none =>
      simp only [HTTPAPIStats.Inc, hs, countIn, incCore, hm]
      rw [readH_writeH_self (by simpa [writeH] using hr)]
      by_cases hk : k = api
      · simp [lookupA_setA, hk, hm]
      · simp [lookupA_setA, hk, Ne.symm hk, hm]

/-- `Inc` on one table does not change the observable counts of a distinct
valid table. -/
theorem Inc_countIn_frame (h : Heap) (stats other : HTTPAPIStats)
    (api k : String) (hv : validT h other) (hd : distinctT stats other) :
    countIn (stats.Inc h api).1 other k = countIn h other k := by
  cases ho : other.APIStats with
  | none => simp [countIn, ho]
  | some s =>
    have hs' : s < h.cells.length := hv s ho
    cases hst : stats.APIStats with
    | none =>
      have hne : h.cells.length ≠ s := (Nat.ne_of_lt hs').symm
      simp only [HTTPAPIStats.Inc, hst, countIn, ho]
      rw [show (allocH h []).2 = h.cells.length from rfl,
        incCore_readH_ne _ _ _ hne, readH_allocH_old h hs']
    | some r =>
      have hne : r ≠ s := hd r s hst ho
      simp only [HTTPAPIStats.Inc, hst, countIn, ho]
      rw [incCore_readH_ne _ _ _ hne]

/-- The map reference of a table after `Inc`: the old one, or the fresh
cell appended at the end of the heap. -/
theorem Inc_ref (stats : HTTPAPIStats) (h : Heap) (api : String) :
    (stats.APIStats = none
        ∧ (stats.Inc h api).2.APIStats = some h.cells.length)
      ∨ (∃ r, stats.APIStats = some r
          ∧ (stats.Inc h api).2.APIStats = some r) := by
  cases hs : stats.APIStats with
  | none => exact Or.inl ⟨rfl, by simp [HTTPAPIStats.Inc, hs, allocH]⟩
  | some r => exact Or.inr ⟨r, rfl, by simp [HTTPAPIStats.Inc, hs]⟩

/-- What `Dec` does to the observable counts: the named count goes down by
one exactly when it is positive; every other situation is a no-op. -/
theorem Dec_countIn (h : Heap) (stats : HTTPAPIStats) (api k : String)
    (hv : validT h stats) :
    countIn (stats.Dec h api).1 (stats.Dec h api).2 k
      = if k = api ∧ 0 < countIn h stats api then countIn h stats k - 1
        else countIn h stats k := by
  cases hs : stats.APIStats with
  | none => simp [HTTPAPIStats.Dec, hs, countIn]
  | some r =>
    have hr : r < h.cells.length := hv r hs
    cases hm : lookupA (readH h r) api with
    | none =>
      simp [HTTPAPIStats.Dec, hs, hm, countIn]
    | some v =>
      by_cases hpos : 0 < v
      · simp only [HTTPAPIStats.Dec, hs, hm, if_pos hpos, countIn]
        rw [readH_writeH_self (by simpa [writeH] using hr)]
        by_cases hk : k = api
        · subst hk
          simp [lookupA_setA, hm, hpos]
        · simp [lookupA_setA, hk, Ne.symm hk, hm]
      · have hcond : ¬ (k = api ∧ 0 < countIn h stats api) := by
          simp only [countIn, hs, hm, Option.getD_some]
          rintro ⟨_, hgt⟩
          exact hpos hgt
        rw [if_neg hcond]
        simp [HTTPAPIStats.Dec, hs, hm, hpos]

theorem Inc_heap_length_none (stats : HTTPAPIStats) (h : Heap) (api : String)
    (hs : stats.APIStats = none) :
    (stats.Inc h api).1.cells.length = h.cells.length + 1 := by
  simp [HTTPAPIStats.Inc, hs, incCore_length, allocH]

theorem Inc_heap_length_some (stats : HTTPAPIStats) (h : Heap) (api : String)
    (r : Ref) (hs : stats.APIStats = some r) :
    (stats.Inc h api).1.cells.length = h.cells.length := by
  simp [HTTPAPIStats.Inc, hs, incCore_length]

theorem validT_mono {h h' : Heap} (hl : h.cells.length ≤ h'.cells.length)
    {stats : HTTPAPIStats} (hv : validT h stats) : validT h' stats :=
  fun r hr => lt_of_lt_of_le (hv r hr) hl

theorem validT_Inc_self (stats : HTTPAPIStats) (h : Heap) (api : String)
    (hv : validT h stats) :
    validT (stats.Inc h api).1 (stats.Inc h api).2 := by
  intro r hr
  rcases Inc_ref stats h api with ⟨hnone, href⟩ | ⟨r0, hsome, href⟩
  · rw [href] at hr
    have heq : h.cells.length = r := Option.some.inj hr
    rw [Inc_heap_length_none stats h api hnone, heq]
    exact Nat.lt_succ_self r
  · rw [href] at hr
    have heq : r0 = r := Option.some.inj hr
    rw [Inc_heap_length_some stats h api r0 hsome, ← heq]
    exact hv r0 hsome

theorem distinctT_Inc (a stats : HTTPAPIStats) (h : Heap) (api : String)
    (hva : validT h a) (hd : distinctT stats a) :
    distinctT a (stats.Inc h api).2 := by
  intro s rr hsa hrr
  rcases Inc_ref stats h api with ⟨hnone, href⟩ | ⟨r0, hsome, href⟩
  · rw [href] at hrr
    cases hrr
    exact Nat.ne_of_lt (hva s hsa)
  · rw [href] at hrr
    cases hrr
    exact fun he => (hd _ s hsome hsa) he.symm

/-- The invariant maintained by every `Inc`/`Dec` call: the table's map
reference is a valid heap cell and every observable count is
non-negative. -/
def goodTable (p : Heap × HTTPAPIStats) : Prop :=
  validT p.1 p.2 ∧ ∀ api, 0 ≤ countIn p.1 p.2 api

theorem goodTable_applyOp (p : Heap × HTTPAPIStats) (hg : goodTable p)
    (op : APIOp) : goodTable (applyOp p op) := by
  obtain ⟨hv, hnn⟩ := hg
  cases op with
  | inc api =>
    refine ⟨validT_Inc_self p.2 p.1 api hv, ?_⟩
    intro k
    rw [show applyOp p (.inc api) = p.2.Inc p.1 api from rfl]
    rw [Inc_countIn p.1 p.2 api k hv]
    split
    · have := hnn api
      omega
    · exact hnn k
  | dec api =>
    constructor
    · intro r hr
      rw [show applyOp p (.dec api) = p.2.Dec p.1 api from rfl] at hr ⊢
      rw [Dec_snd] at hr
      rw [Dec_heap_length]
      exact hv r hr
    · intro k
      rw [show applyOp p (.dec api) = p.2.Dec p.1 api from rfl]
      rw [Dec_countIn p.1 p.2 api k hv]
      split
      · next hc =>
        obtain ⟨hk, hpos⟩ := hc
        subst hk
        omega
      · exact hnn k

theorem goodTable_runOps (ops : List APIOp) : goodTable (runOps ops) := by
  have hstep : ∀ (l : List APIOp) (p : Heap × HTTPAPIStats),
      goodTable p → goodTable (l.foldl applyOp p) := by
    intro l
    induction l with
    | nil => intro p hp; exact hp
    | cons op rest ih =>
      intro p hp
      exact ih _ (goodTable_applyOp p hp op)
  refine hstep ops (⟨[]⟩, ⟨none⟩) ⟨?_, ?_⟩
  · intro r hr
    cases hr
  · intro api
    simp [countIn]

/-! ## Claims about the API counter tables -/

/-- Claim C3: counts never go negative. `Dec` decrements only when the key
exists with a positive value (second conjunct); on a missing key, a nil
map, or a non-positive value it is a no-op returning heap and table
unchanged (first conjunct); hence along any sequence of `Inc`/`Dec` calls
from a fresh table every observable count stays non-negative (third
conjunct). -/
theorem Dec_never_negative :
    (∀ (h : Heap) (stats : HTTPAPIStats) (api : String),
        (stats.APIStats = none
          ∨ ∃ r, stats.APIStats = some r
              ∧ ∀ v, lookupA (readH h r) api = some v → v ≤ 0) →
        stats.Dec h api = (h, stats))
      ∧ (∀ (h : Heap) (stats : HTTPAPIStats) (api : String) (r : Ref) (v : Int),
          stats.APIStats = some r → r < h.cells.length →
          lookupA (readH h r) api = some v → 0 < v →
          countIn (stats.Dec h api).1 (stats.Dec h api).2 api = v - 1)
      ∧ (∀ (ops : List APIOp) (api : String),
          0 ≤ countIn (runOps ops).1 (runOps ops).2 api) := by
  refine ⟨?_, ?_, ?_⟩
  · intro h stats api hcase
    rcases hcase with hnone | ⟨r, hsome, hnp⟩
    · simp [HTTPAPIStats.Dec, hnone]
    · cases hm : lookupA (readH h r) api with
      | none => simp [HTTPAPIStats.Dec, hsome, hm]
      | some v =>
        have hnp' : ¬ 0 < v := by
          have := hnp v hm
          omega
        simp [HTTPAPIStats.Dec, hsome, hm, hnp']
  · intro h stats api r v hsome hr hm hpos
    have hv : validT h stats := by
      intro r' hr'
      rw [hsome] at hr'
      have heq : r = r' := Option.some.inj hr'
      rw [← heq]
      exact hr
    rw [Dec_countIn h stats api api hv]
    have hcv : countIn h stats api = v := by simp [countIn, hsome, hm]
    rw [if_pos ⟨rfl, by omega⟩, hcv]
  · intro ops api
    exact (goodTable_runOps ops).2 api

theorem Dec_never_negative_witness :
    ((⟨some 0⟩ : HTTPAPIStats).APIStats = some 0
        ∧ 0 < (⟨[[("GetObject", 2)]]⟩ : Heap).cells.length
        ∧ lookupA (readH ⟨[[("GetObject", 2)]]⟩ 0) "GetObject" = some 2
        ∧ (0 : Int) < 2)
      ∧ countIn ((⟨some 0⟩ : HTTPAPIStats).Dec ⟨[[("GetObject", 2)]]⟩ "GetObject").1
          ((⟨some 0⟩ : HTTPAPIStats).Dec ⟨[[("GetObject", 2)]]⟩ "GetObject").2
          "GetObject" = 1 := by
  refine ⟨⟨rfl, by decide, by decide, by decide⟩, ?_⟩
  have h := Dec_never_negative.2.1 ⟨[[("GetObject", 2)]]⟩ ⟨some 0⟩ "GetObject" 0 2
    rfl (by decide) (by decide) (by decide)
  simpa using h

/-- Claim C4, counterexample: `Load` hands out the live map reference, so
the snapshot taken by `toServerHTTPStats` aliases the live table. Starting
from a heap whose cell 0 holds `GetObject ↦ 1` and a stats structure whose
`totalS3Requests` table points at cell 0, incrementing the live table after
taking the snapshot changes the count observed through the snapshot's own
map from 1 to 2 — the snapshot is not independent of subsequent mutation. -/
theorem toServerHTTPStats_counterexample :
    countIn
        ((⟨⟨none⟩, ⟨some 0⟩, ⟨none⟩⟩ : HTTPStats).totalS3Requests.Inc
            ⟨[[("GetObject", 1)]]⟩ "GetObject").1
        ⟨(HTTPStats.toServerHTTPStats
            ⟨⟨none⟩, ⟨some 0⟩, ⟨none⟩⟩).TotalS3Requests.APIStats⟩
        "GetObject"
      ≠ countIn ⟨[[("GetObject", 1)]]⟩
          ⟨(HTTPStats.toServerHTTPStats
              ⟨⟨none⟩, ⟨some 0⟩, ⟨none⟩⟩).TotalS3Requests.APIStats⟩
          "GetObject" := by
  decide

/-- Claim C4, amended: `toServerHTTPStats` does store all three tables in
the reporting structure, but what it stores are the live map references
returned by `Load`, not copies: the snapshot aliases the live tables, and
an `Inc` performed after the snapshot on a table with an existing map is
visible through the snapshot's map. -/
theorem toServerHTTPStats_aliases (st : HTTPStats) :
    (st.toServerHTTPStats.CurrentS3Requests.APIStats
          = st.currentS3Requests.APIStats
      ∧ st.toServerHTTPStats.TotalS3Requests.APIStats
          = st.totalS3Requests.APIStats
      ∧ st.toServerHTTPStats.TotalS3Errors.APIStats
          = st.totalS3Errors.APIStats)
    ∧ ∀ (h : Heap) (api : String) (r : Ref) (v : Int),
        st.toServerHTTPStats.TotalS3Requests.APIStats = some r →
        r < h.cells.length →
        lookupA (readH h r) api = some v →
        lookupA (readH (st.totalS3Requests.Inc h api).1 r) api = some (v + 1) := by
  constructor
  · exact ⟨rfl, rfl, rfl⟩
  · intro h api r v hsnap hr hv
    have hlive : st.totalS3Requests.APIStats = some r := hsnap
    simp only [HTTPAPIStats.Inc, hlive, incCore, hv]
    rw [readH_writeH_self (by simpa [writeH] using hr)]
    simp [lookupA_setA]

theorem toServerHTTPStats_aliases_witness :
    ((HTTPStats.toServerHTTPStats
          (⟨⟨none⟩, ⟨some 0⟩, ⟨none⟩⟩ : HTTPStats)).TotalS3Requests.APIStats
          = some 0
        ∧ 0 < (⟨[[("GetObject", 1)]]⟩ : Heap).cells.length
        ∧ lookupA (readH ⟨[[("GetObject", 1)]]⟩ 0) "GetObject" = some 1)
      ∧ lookupA
          (readH ((⟨⟨none⟩, ⟨some 0⟩, ⟨none⟩⟩ : HTTPStats).totalS3Requests.Inc
              ⟨[[("GetObject", 1)]]⟩ "GetObject").1 0)
          "GetObject" = some 2 := by
  refine ⟨⟨rfl, by decide, by decide⟩, ?_⟩
  have h := (toServerHTTPStats_aliases ⟨⟨none⟩, ⟨some 0⟩, ⟨none⟩⟩).2
    ⟨[[("GetObject", 1)]]⟩ "GetObject" 0 1 rfl (by decide) (by decide)
  simpa using h

/-- Claim C5: `updateStats` increments `totalS3Requests[api]` by one exactly
when the request is S3-flagged and its path does not end in the
metrics-scrape path; given that, it additionally increments
`totalS3Errors[api]` by one exactly when the status code lies outside
[200, 300) and is non-zero; otherwise heap and tables are untouched. The
hypotheses say the two cumulative tables are valid, non-aliased heap
cells — which `newHTTPStats` establishes and every `Inc` preserves. -/
theorem updateStats_correct (h : Heap) (st : HTTPStats) (api : String)
    (r : HttpRequest) (w : RecordAPIStats)
    (hreq : validT h st.totalS3Requests) (herr : validT h st.totalS3Errors)
    (hdis : distinctT st.totalS3Requests st.totalS3Errors) :
    ((w.isS3Request = true
        ∧ ¬ strHasSuffix r.urlPath prometheusMetricsPath = true) →
      (countIn (st.updateStats h api r w).1
          (st.updateStats h api r w).2.totalS3Requests api
        = countIn h st.totalS3Requests api + 1)
      ∧ ((¬ (200 ≤ w.respStatusCode ∧ w.respStatusCode < 300)
            ∧ w.respStatusCode ≠ 0) →
          countIn (st.updateStats h api r w).1
              (st.updateStats h api r w).2.totalS3Errors api
            = countIn h st.totalS3Errors api + 1)
      ∧ (((200 ≤ w.respStatusCode ∧ w.respStatusCode < 300)
            ∨ w.respStatusCode = 0) →
          countIn (st.updateStats h api r w).1
              (st.updateStats h api r w).2.totalS3Errors api
            = countIn h st.totalS3Errors api))
    ∧ (¬ (w.isS3Request = true
          ∧ ¬ strHasSuffix r.urlPath prometheusMetricsPath = true) →
        st.updateStats h api r w = (h, st)) := by
  constructor
  · intro hcnt
    have hv12 : validT (st.totalS3Requests.Inc h api).1
        (st.totalS3Requests.Inc h api).2 :=
      validT_Inc_self st.totalS3Requests h api hreq
    have hverr1 : validT (st.totalS3Requests.Inc h api).1 st.totalS3Errors :=
      validT_mono (Inc_heap_length st.totalS3Requests h api) herr
    have hd2 : distinctT st.totalS3Errors (st.totalS3Requests.Inc h api).2 :=
      distinctT_Inc st.totalS3Errors st.totalS3Requests h api herr hdis
    have hreqplus : countIn (st.totalS3Requests.Inc h api).1
        (st.totalS3Requests.Inc h api).2 api
        = countIn h st.totalS3Requests api + 1 := by
      have hx := Inc_countIn h st.totalS3Requests api api hreq
      simpa using hx
    have herrframe : countIn (st.totalS3Requests.Inc h api).1
        st.totalS3Errors api = countIn h st.totalS3Errors api :=
      Inc_countIn_frame h st.totalS3Requests st.totalS3Errors api api herr hdis
    have herrplus : countIn
        (st.totalS3Errors.Inc (st.totalS3Requests.Inc h api).1 api).1
        (st.totalS3Errors.Inc (st.totalS3Requests.Inc h api).1 api).2 api
        = countIn (st.totalS3Requests.Inc h api).1 st.totalS3Errors api + 1 := by
      have hx := Inc_countIn (st.totalS3Requests.Inc h api).1 st.totalS3Errors
        api api hverr1
      simpa using hx
    have hreqframe : countIn
        (st.totalS3Errors.Inc (st.totalS3Requests.Inc h api).1 api).1
        (st.totalS3Requests.Inc h api).2 api
        = countIn (st.totalS3Requests.Inc h api).1
            (st.totalS3Requests.Inc h api).2 api :=
      Inc_countIn_frame (st.totalS3Requests.Inc h api).1 st.totalS3Errors
        (st.totalS3Requests.Inc h api).2 api api hv12 hd2
    by_cases herrc : ¬ (200 ≤ w.respStatusCode ∧ w.respStatusCode < 300)
        ∧ w.respStatusCode ≠ 0
    · refine ⟨?_, fun _ => ?_, fun hsucc => ?_⟩
      · simp only [HTTPStats.updateStats]
        rw [if_pos hcnt, if_pos herrc]
        dsimp only
        rw [hreqframe]
        exact hreqplus
      · simp only [HTTPStats.updateStats]
        rw [if_pos hcnt, if_pos herrc]
        dsimp only
        rw [herrplus, herrframe]
      · exfalso
        rcases hsucc with hs | hz
        · exact herrc.1 hs
        · exact herrc.2 hz
    · refine ⟨?_, fun hc => absurd hc herrc, fun _ => ?_⟩
      · simp only [HTTPStats.updateStats]
        rw [if_pos hcnt, if_neg herrc]
        dsimp only
        exact hreqplus
      · simp only [HTTPStats.updateStats]
        rw [if_pos hcnt, if_neg herrc]
        dsimp only
        exact herrframe
  · intro hnc
    simp only [HTTPStats.updateStats]
    rw [if_neg hnc]

theorem updateStats_correct_witness :
    countIn (newHTTPStats.updateStats ⟨[]⟩ "GetObject"
          ⟨"/bucket/key", "GET"⟩ ⟨500, true⟩).1
        (newHTTPStats.updateStats ⟨[]⟩ "GetObject"
          ⟨"/bucket/key", "GET"⟩ ⟨500, true⟩).2.totalS3Requests "GetObject" = 1
      ∧ countIn (newHTTPStats.updateStats ⟨[]⟩ "GetObject"
            ⟨"/bucket/key", "GET"⟩ ⟨500, true⟩).1
          (newHTTPStats.updateStats ⟨[]⟩ "GetObject"
            ⟨"/bucket/key", "GET"⟩ ⟨500, true⟩).2.totalS3Errors "GetObject" = 1 := by
  have h := updateStats_correct ⟨[]⟩ newHTTPStats "GetObject"
    ⟨"/bucket/key", "GET"⟩ ⟨500, true⟩
    (fun r hr => Option.noConfusion hr) (fun r hr => Option.noConfusion hr)
    (fun r s hr hs => Option.noConfusion hr)
  have h1 := h.1 ⟨rfl, by decide⟩
  constructor
  · have hx := h1.1
    simpa [newHTTPStats, countIn] using hx
  · have hx := h1.2.1 (by constructor <;> decide)
    simpa [newHTTPStats, countIn] using hx

/-! ## ConnStats: atomic byte counters -/

/-- `ConnStats`: four `atomic.Uint64` counters, modelled as naturals below
`2 ^ 64`. -/
structure ConnStats where
  totalInputBytes : Nat
  totalOutputBytes : Nat
  s3InputBytes : Nat
  s3OutputBytes : Nat
deriving DecidableEq, Repr

/-- Go `uint64(n)` applied to an `int`. -/
def goUint64 (n : Int) : Nat := (n % (2 ^ 64)).toNat

/-- One `atomic.Uint64.Add`: by the contract of the atomic package this is
a single indivisible fetch-add (modulo `2 ^ 64`), which is how the
concurrency claims below model it. -/
def uint64Add (c n : Nat) : Nat := (c + n) % 2 ^ 64

def ConnStats.incInputBytes (s : ConnStats) (n : Int) : ConnStats :=
  { s with totalInputBytes := uint64Add s.totalInputBytes (goUint64 n) }

def ConnStats.incOutputBytes (s : ConnStats) (n : Int) : ConnStats :=
  { s with totalOutputBytes := uint64Add s.totalOutputBytes (goUint64 n) }

def ConnStats.incS3InputBytes (s : ConnStats) (n : Int) : ConnStats :=
  { s with s3InputBytes := uint64Add s.s3InputBytes (goUint64 n) }

def ConnStats.incS3OutputBytes (s : ConnStats) (n : Int) : ConnStats :=
  { s with s3OutputBytes := uint64Add s.s3OutputBytes (goUint64 n) }

/-- `newConnStats()`: all four counters start at zero. -/
def newConnStats : ConnStats := ⟨0, 0, 0, 0⟩

/-- A concurrent execution of `incInputBytes` calls: each `Add` is one
indivisible transition, so a schedule is the callers' adds in whatever
order the hardware serialised them. The three runs below do the same for
the other three counters. -/
def runIncInputBytes (s : ConnStats) (calls : List Int) : ConnStats :=
  calls.foldl ConnStats.incInputBytes s

def runIncOutputBytes (s : ConnStats) (calls : List Int) : ConnStats :=
  calls.foldl ConnStats.incOutputBytes s

def runIncS3InputBytes (s : ConnStats) (calls : List Int) : ConnStats :=
  calls.foldl ConnStats.incS3InputBytes s

def runIncS3OutputBytes (s : ConnStats) (calls : List Int) : ConnStats :=
  calls.foldl ConnStats.incS3OutputBytes s

theorem runIncInputBytes_total (calls : List Int) :
    ∀ (s : ConnStats), s.totalInputBytes < 2 ^ 64 →
      (runIncInputBytes s calls).totalInputBytes
        = (s.totalInputBytes + (calls.map goUint64).sum) % 2 ^ 64 := by
  induction calls with
  | nil =>
    intro s hs
    simp only [runIncInputBytes, List.foldl_nil, List.map_nil, List.sum_nil,
      Nat.add_zero]
    omega
  | cons c rest ih =>
    intro s hs
    rw [show runIncInputBytes s (c :: rest)
        = runIncInputBytes (s.incInputBytes c) rest from rfl]
    rw [ih (s.incInputBytes c)
      (by
        simp only [ConnStats.incInputBytes, uint64Add]
        exact Nat.mod_lt _ (by norm_num))]
    simp only [ConnStats.incInputBytes, uint64Add, List.map_cons, List.sum_cons]
    rw [Nat.mod_add_mod, Nat.add_assoc]

theorem runIncOutputBytes_total (calls : List Int) :
    ∀ (s : ConnStats), s.totalOutputBytes < 2 ^ 64 →
      (runIncOutputBytes s calls).totalOutputBytes
        = (s.totalOutputBytes + (calls.map goUint64).sum) % 2 ^ 64 := by
  induction calls with
  | nil =>
    intro s hs
    simp only [runIncOutputBytes, List.foldl_nil, List.map_nil, List.sum_nil,
      Nat.add_zero]
    omega
  | cons c rest ih =>
    intro s hs
    rw [show runIncOutputBytes s (c :: rest)
        = runIncOutputBytes (s.incOutputBytes c) rest from rfl]
    rw [ih (s.incOutputBytes c)
      (by
        simp only [ConnStats.incOutputBytes, uint64Add]
        exact Nat.mod_lt _ (by norm_num))]
    simp only [ConnStats.incOutputBytes, uint64Add, List.map_cons, List.sum_cons]
    rw [Nat.mod_add_mod, Nat.add_assoc]

theorem runIncS3InputBytes_total (calls : List Int) :
    ∀ (s : ConnStats), s.s3InputBytes < 2 ^ 64 →
      (runIncS3InputBytes s calls).s3InputBytes
        = (s.s3InputBytes + (calls.map goUint64).sum) % 2 ^ 64 := by
  induction calls with
  | nil =>
    intro s hs
    simp only [runIncS3InputBytes, List.foldl_nil, List.map_nil, List.sum_nil,
      Nat.add_zero]
    omega
  | cons c rest ih =>
    intro s hs
    rw [show runIncS3InputBytes s (c :: rest)
        = runIncS3InputBytes (s.incS3InputBytes c) rest from rfl]
    rw [ih (s.incS3InputBytes c)
      (by
        simp only [ConnStats.incS3InputBytes, uint64Add]
        exact Nat.mod_lt _ (by norm_num))]
    simp only [ConnStats.incS3InputBytes, uint64Add, List.map_cons, List.sum_cons]
    rw [Nat.mod_add_mod, Nat.add_assoc]

theorem runIncS3OutputBytes_total (calls : List Int) :
    ∀ (s : ConnStats), s.s3OutputBytes < 2 ^ 64 →
      (runIncS3OutputBytes s calls).s3OutputBytes
        = (s.s3OutputBytes + (calls.map goUint64).sum) % 2 ^ 64 := by
  induction calls with
  | nil =>
    intro s hs
    simp only [runIncS3OutputBytes, List.foldl_nil, List.map_nil, List.sum_nil,
      Nat.add_zero]
    omega
  | cons c rest ih =>
    intro s hs
    rw [show runIncS3OutputBytes s (c :: rest)
        = runIncS3OutputBytes (s.incS3OutputBytes c) rest from rfl]
    rw [ih (s.incS3OutputBytes c)
      (by
        simp only [ConnStats.incS3OutputBytes, uint64Add]
        exact Nat.mod_lt _ (by norm_num))]
    simp only [ConnStats.incS3OutputBytes, uint64Add, List.map_cons, List.sum_cons]
    rw [Nat.mod_add_mod, Nat.add_assoc]

/-- The common arithmetic: the wrapped sum of any serialisation of `T`
adds of `B` is exactly `T * B` when that fits in 64 bits. -/
theorem sched_sum_mod (T : Nat) (B : Int) (sched : List Int)
    (hperm : sched.Perm (List.replicate T B)) (hB : 0 ≤ B)
    (hlt : T * B.toNat < 2 ^ 64) :
    (sched.map goUint64).sum % 2 ^ 64 = T * B.toNat := by
  have hsum : (sched.map goUint64).sum = ((List.replicate T B).map goUint64).sum :=
    (hperm.map goUint64).sum_eq
  rw [hsum, List.map_replicate, List.sum_replicate, smul_eq_mul]
  have hg : goUint64 B = B.toNat % 2 ^ 64 := by
    unfold goUint64
    omega
  rw [hg]
  cases T with
  | zero => simp
  | succ t =>
    have hBlt : B.toNat < 2 ^ 64 :=
      lt_of_le_of_lt (Nat.le_mul_of_pos_left B.toNat (Nat.succ_pos t)) hlt
    rw [Nat.mod_eq_of_lt hBlt, Nat.mod_eq_of_lt hlt]

/-- Claim C8: every byte counter of `ConnStats` has atomic-add semantics,
so no schedule of concurrent increments loses an update: for any
serialisation order of `T` callers each adding `B` bytes, each of the four
counters ends at exactly `T * B` (whenever `T * B` fits in 64 bits; in
general the sum is taken modulo `2 ^ 64`, as `uint64` arithmetic wraps). -/
theorem connStats_concurrent_adds (T : Nat) (B : Int) (sched : List Int)
    (hperm : sched.Perm (List.replicate T B)) (hB : 0 ≤ B)
    (hlt : T * B.toNat < 2 ^ 64) :
    (runIncInputBytes newConnStats sched).totalInputBytes = T * B.toNat
      ∧ (runIncOutputBytes newConnStats sched).totalOutputBytes = T * B.toNat
      ∧ (runIncS3InputBytes newConnStats sched).s3InputBytes = T * B.toNat
      ∧ (runIncS3OutputBytes newConnStats sched).s3OutputBytes = T * B.toNat := by
  refine ⟨?_, ?_, ?_, ?_⟩
  · rw [runIncInputBytes_total sched newConnStats (by norm_num [newConnStats]),
      show newConnStats.totalInputBytes = 0 from rfl, Nat.zero_add]
    exact sched_sum_mod T B sched hperm hB hlt
  · rw [runIncOutputBytes_total sched newConnStats (by norm_num [newConnStats]),
      show newConnStats.totalOutputBytes = 0 from rfl, Nat.zero_add]
    exact sched_sum_mod T B sched hperm hB hlt
  · rw [runIncS3InputBytes_total sched newConnStats (by norm_num [newConnStats]),
      show newConnStats.s3InputBytes = 0 from rfl, Nat.zero_add]
    exact sched_sum_mod T B sched hperm hB hlt
  · rw [runIncS3OutputBytes_total sched newConnStats (by norm_num [newConnStats]),
      show newConnStats.s3OutputBytes = 0 from rfl, Nat.zero_add]
    exact sched_sum_mod T B sched hperm hB hlt

theorem connStats_concurrent_adds_witness :
    (List.replicate 8 (4096 : Int)).Perm (List.replicate 8 (4096 : Int))
      ∧ (0 : Int) ≤ 4096
      ∧ 8 * (4096 : Int).toNat < 2 ^ 64
      ∧ ((runIncInputBytes newConnStats
            (List.replicate 8 (4096 : Int))).totalInputBytes = 8 * (4096 : Int).toNat
          ∧ (runIncOutputBytes newConnStats
              (List.replicate 8 (4096 : Int))).totalOutputBytes = 8 * (4096 : Int).toNat
          ∧ (runIncS3InputBytes newConnStats
              (List.replicate 8 (4096 : Int))).s3InputBytes = 8 * (4096 : Int).toNat
          ∧ (runIncS3OutputBytes newConnStats
              (List.replicate 8 (4096 : Int))).s3OutputBytes = 8 * (4096 : Int).toNat) := by
  refine ⟨List.Perm.refl _, by decide, by decide, ?_⟩
  exact connStats_concurrent_adds 8 4096 (List.replicate 8 4096)
    (List.Perm.refl _) (by decide) (by decide)

/-! ## Claim C9: the nil-check after the lock -/

/-- A Go runtime fault. -/
inductive GoPanic
  | nilDeref
deriving DecidableEq, Repr

/-- `stats.Lock()` on a possibly-nil receiver: the promoted `sync.RWMutex`
method dereferences the receiver, so a nil receiver faults before the
body runs. -/
def lockRecv : Option HTTPAPIStats → Except GoPanic HTTPAPIStats
  | none => .error .nilDeref
  | some s => .ok s

/-- `HTTPAPIStats.Inc` as written, with the receiver as an explicit
(possibly nil) pointer: first the lock acquisition (which dereferences the
receiver), then the `stats == nil` check. The returned flag records
whether that check's early-return branch was taken. -/
def IncPtr (stats : Option HTTPAPIStats) (h : Heap) (api : String) :
    Except GoPanic (Heap × HTTPAPIStats × Bool) :=
  match lockRecv stats with
  | .error f => .error f
  | .ok s =>
    if stats = none then .ok (h, s, true)
    else
      let p := s.Inc h api
      .ok (p.1, p.2, false)

/-- `HTTPAPIStats.Dec` with the same explicit receiver treatment as
`IncPtr`. -/
def DecPtr (stats : Option HTTPAPIStats) (h : Heap) (api : String) :
    Except GoPanic (Heap × HTTPAPIStats × Bool) :=
  match lockRecv stats with
  | .error f => .error f
  | .ok s =>
    if stats = none then .ok (h, s, true)
    else
      let p := s.Dec h api
      .ok (p.1, p.2, false)

/-- Claim C9: in `Inc` and `Dec` the `stats == nil` check sits after the
lock acquisition that already dereferences the receiver, so it is dead
code: a nil receiver faults in `Lock` before reaching the check, and a
non-nil receiver never takes the branch — the flag is always `false` and
the body runs as the plain `Inc`/`Dec`. -/
theorem nil_check_unreachable :
    (∀ (h : Heap) (api : String),
        IncPtr none h api = .error .nilDeref
          ∧ DecPtr none h api = .error .nilDeref)
      ∧ (∀ (s : HTTPAPIStats) (h : Heap) (api : String),
          IncPtr (some s) h api
              = .ok ((s.Inc h api).1, (s.Inc h api).2, false)
            ∧ DecPtr (some s) h api
              = .ok ((s.Dec h api).1, (s.Dec h api).2, false)) := by
  refine ⟨fun h api => ⟨rfl, rfl⟩, fun s h api => ⟨?_, ?_⟩⟩
  · simp [IncPtr, lockRecv]
  · simp [DecPtr, lockRecv]
